import Mathlib

/-!
Verification of the Argus C++ reconnaissance core (scrape / sherlock / harvester).

The embedding models the three entry points of the core translation unit:
`scrape_url` / `parallel_scrape` (bulk fetch into a url-keyed map),
`check_sherlock_url` / `parallel_sherlock` (username existence probe), and
`parallel_harvester` (search-engine dorking plus regex extraction of emails
and subdomains).

Network behaviour is abstracted as an oracle: each job (identified by its
position in the submitted job list and its URL) receives an outcome chosen by
the oracle.  Each TBB worker writes only to its own job slot, and results are
merged sequentially after the parallel phase joins, so the whole pipeline is
observationally a pure function of the oracle — which is what we embed.

Strings are handled through their character lists; fallible C++ operations
(here: `std::string::replace` at `npos`, which throws `std::out_of_range`)
are embedded as `Option`-returning functions where `none` models the thrown
exception escaping the enclosing call.
-/

/-! ## Generic list helpers -/

/-- Pair every element of a list with its index, starting at `n`
(models iterating a job vector with its position). -/
def withIdx : Nat → List α → List (Nat × α)
  | _, [] => []
  | n, x :: xs => (n, x) :: withIdx (n + 1) xs

/-- First index at which `pat` occurs as a contiguous substring of `l`
(models `std::string::find`, with `none` for `npos`). -/
def findSubstr (pat : List Char) : List Char → Option Nat
  | [] => if pat.isPrefixOf ([] : List Char) then some 0 else none
  | c :: cs =>
    if pat.isPrefixOf (c :: cs) then some 0
    else (findSubstr pat cs).map (· + 1)

/-- Map a fallible function over a list, failing on the first failure
(models a loop whose body may throw: the exception aborts the whole loop). -/
def mapOpt (f : α → Option β) : List α → Option (List β)
  | [] => some []
  | x :: xs =>
    match f x, mapOpt f xs with
    | some y, some ys => some (y :: ys)
    | _, _ => none

/-- `pat` occurs somewhere inside `s` (models `s.find(pat) != std::string::npos`). -/
def containsSub (s pat : String) : Bool := (findSubstr pat.data s.data).isSome

/-! ## Fetch worker: `scrape_url` (BodyFetch) -/

/-- Transport-level result of one libcurl body fetch: `initFail` models
`curl_easy_init()` returning null, `ok body` a `CURLE_OK` perform with the
accumulated response body, `err msg` any other `CURLcode` with its
`curl_easy_strerror` description. -/
inductive CurlOutcome where
  | initFail
  | ok (body : String)
  | err (msg : String)
deriving DecidableEq

/-- `scrape_url`: reduce one body fetch to the string stored in
`job.result_html`. -/
def scrape_url : CurlOutcome → String
  | .ok body => body
  | .err msg => "CURL_ERROR: " ++ msg
  | .initFail => "CURL_INIT_ERROR"

/-! ## Result map (`std::map<std::string, std::string>` restricted to the
operations the core performs: `operator[]=` and lookup). -/

/-- `results[k] = v`: overwrite the entry for `k` if present, insert otherwise. -/
def mapAssign : List (String × String) → String → String → List (String × String)
  | [], k, v => [(k, v)]
  | p :: ps, k, v => if p.1 = k then (k, v) :: ps else p :: mapAssign ps k v

/-- Lookup in the result map. -/
def mapFind : List (String × String) → String → Option String
  | [], _ => none
  | p :: ps, k => if p.1 = k then some p.2 else mapFind ps k

/-- The key column of a result map. -/
def mapKeys (m : List (String × String)) : List String := m.map (·.1)

/-! ## Dispatcher: `parallel_scrape` -/

/-- `parallel_scrape`: build one job per URL, let every worker fetch its own
job (oracle `net`, indexed by job position and URL), then merge all completed
jobs into the result map in job order (`results[job.url] = job.result_html`). -/
def parallel_scrape (net : Nat → String → CurlOutcome) (urls : List String) :
    List (String × String) :=
  ((withIdx 0 urls).map (fun p => (p.2, scrape_url (net p.1 p.2)))).foldl
    (fun m j => mapAssign m j.1 j.2) []

/-! ## Existence probe: `check_sherlock_url` and `parallel_sherlock` -/

/-- Transport-level result of one header-only probe: `completed code` models a
`CURLE_OK` perform with `CURLINFO_RESPONSE_CODE` equal to `code`; the other
constructors model a failed perform and a null `curl_easy_init()`. -/
inductive HeadFetch where
  | initFail
  | transportErr
  | completed (code : Nat)
deriving DecidableEq

/-- `check_sherlock_url`: the probe sets `job.found` exactly when the exchange
completed with HTTP status 200. -/
def check_sherlock_url : HeadFetch → Bool
  | .completed code => code == 200
  | .transportErr => false
  | .initFail => false

/-- The placeholder token substituted into each site template. -/
def placeholder : String := "{username}"

/-- `url.replace(url.find("{username}"), 10, username)`: substitute the first
occurrence of the placeholder.  When the template has no placeholder, `find`
yields `npos` and `replace` throws `std::out_of_range`; that raised failure is
modelled as `none`. -/
def substUsername (username template : String) : Option String :=
  match findSubstr placeholder.data template.data with
  | some i =>
    some (String.mk (template.data.take i ++ username.data ++
      template.data.drop (i + 10)))
  | none => none

/-- `parallel_sherlock` (job construction, parallel check, sequential collect):
substitute the candidate into every template — a template without the
placeholder throws, aborting the whole call (`none`) — probe every concrete
URL, and collect, in job order, the URLs whose probe set `found`. -/
def parallel_sherlock (net : Nat → String → HeadFetch) (username : String)
    (sites_to_check : List String) : Option (List String) :=
  match mapOpt (substUsername username) sites_to_check with
  | none => none
  | some urls =>
    some (((((withIdx 0 urls).map
      (fun p => (p.2, check_sherlock_url (net p.1 p.2)))).filter
        (fun j => j.2)).map (fun j => j.1)))

/-! ## Harvester regex engine

`parallel_harvester` extracts matches of two `std::regex` patterns
(ECMAScript grammar) with `std::sregex_iterator`:

* `email_regex`:      `[a-zA-Z0-9._%+-]+@[a-zA-Z0-9.-]+\.[a-zA-Z]{2,}`
* `subdomain_regex`:  `([a-zA-Z0-9.-]+\.` + domain + `)`

The embedding implements exactly these two pattern shapes with ECMAScript
semantics: the scan tries successive start positions left to right, at a
given start a greedy character-class run backtracks from longest to shortest
to let the forced `\.` and the pattern tail match, and the iterator resumes
after the end of each (necessarily non-empty) match.  The interpolated
domain is compiled character by character: a `.` in the domain is the
ECMAScript wildcard (any char except a line terminator), every other
character of an `[a-zA-Z0-9.-]`-only domain is a literal. -/

/-- Characters of the class `[a-zA-Z0-9.-]` (host part / subdomain labels). -/
def isHostChar (c : Char) : Bool := c.isAlpha || c.isDigit || c == '.' || c == '-'

/-- Characters of the class `[a-zA-Z0-9._%+-]` (email local part). -/
def isLocalChar (c : Char) : Bool :=
  c.isAlpha || c.isDigit || c == '.' || c == '_' || c == '%' || c == '+' || c == '-'

/-- Length of the maximal leading run of characters satisfying `p`. -/
def runLen (p : Char → Bool) : List Char → Nat
  | [] => 0
  | c :: cs => if p c then runLen p cs + 1 else 0

/-- One backtracking step for `class+\.tail`: if the character at position `j`
of `l` is the forced literal `.` and `cont` matches what follows (returning how
many further characters the tail consumes), the match consumes `j + 1 + n`
characters of `l`; otherwise fall back (to the next shorter run). -/
def tryDotAt (cont : List Char → Option Nat) (l : List Char) (j : Nat)
    (fallback : Option Nat) : Option Nat :=
  match l.drop j with
  | c :: rest =>
    if c = '.' then
      match cont rest with
      | some n => some (j + 1 + n)
      | none => fallback
    else fallback
  | [] => fallback

/-- Greedy backtracking for `class+\.tail`: try run lengths `j, j-1, ..., 1`
in that order and commit to the first that lets the forced `.` and the tail
match.  Returns the total number of characters consumed from `l`. -/
def trySplit (cont : List Char → Option Nat) (l : List Char) : Nat → Option Nat
  | 0 => none
  | j + 1 => tryDotAt cont l (j + 1) (trySplit cont l j)

/-- Tail of the email pattern after the forced dot: `[a-zA-Z]{2,}` greedy, with
nothing after it, so it consumes the whole alphabetic run if long enough. -/
def tldLen (rest : List Char) : Option Nat :=
  let a := runLen Char.isAlpha rest
  if 2 ≤ a then some a else none

/-- Length of the email-pattern match anchored at the head of `l`, if any. -/
def emailMatchLen (l : List Char) : Option Nat :=
  let k := runLen isLocalChar l
  if k = 0 then none
  else
    match l.drop k with
    | c :: rest =>
      if c = '@' then
        match trySplit tldLen rest (runLen isHostChar rest) with
        | some n => some (k + 1 + n)
        | none => none
      else none
    | [] => none

/-- One compiled atom of the interpolated domain: a literal character, or the
ECMAScript wildcard that `.` denotes outside a character class. -/
inductive RAtom where
  | lit (c : Char)
  | wild
deriving DecidableEq

/-- The ECMAScript wildcard matches any character except a line terminator. -/
def lineTermFree (c : Char) : Bool :=
  !(c == '\n' || c == '\r' || c == '\u2028' || c == '\u2029')

/-- Does one atom match one character? -/
def atomStep : RAtom → Char → Bool
  | .lit x, c => c == x
  | .wild, c => lineTermFree c

/-- Match a fixed atom sequence against a prefix of `l`, returning the number
of characters consumed (always the atom count) on success. -/
def atomsLen : List RAtom → List Char → Option Nat
  | [], _ => some 0
  | _ :: _, [] => none
  | a :: as, c :: cs => if atomStep a c then (atomsLen as cs).map (· + 1) else none

/-- Compile the target domain as interpolated (unescaped) into the subdomain
pattern: `.` becomes the wildcard, everything else a literal. -/
def compileDomain (domain : String) : List RAtom :=
  domain.data.map (fun c => if c == '.' then RAtom.wild else RAtom.lit c)

/-- Length of the subdomain-pattern match anchored at the head of `l`, if any. -/
def subMatchLen (atoms : List RAtom) (l : List Char) : Option Nat :=
  trySplit (atomsLen atoms) l (runLen isHostChar l)

/-- `std::sregex_iterator` scan: at each position try the anchored matcher; on
a match emit it and resume after its end, otherwise advance one character.
`fuel` (instantiated with the list length) only serves termination. -/
def scanAux (ml : List Char → Option Nat) : Nat → List Char → List (List Char)
  | 0, _ => []
  | _, [] => []
  | fuel + 1, c :: cs =>
    match ml (c :: cs) with
    | some n => (c :: cs).take n :: scanAux ml fuel ((c :: cs).drop n)
    | none => scanAux ml fuel cs

/-- All successive non-overlapping matches of the anchored matcher `ml`. -/
def regexScan (ml : List Char → Option Nat) (l : List Char) : List (List Char) :=
  scanAux ml l.length l

/-- All email-pattern matches in a body. -/
def findEmails (s : String) : List String :=
  (regexScan emailMatchLen s.data).map String.mk

/-- All subdomain-pattern matches in a body. -/
def findSubs (atoms : List RAtom) (s : String) : List String :=
  (regexScan (subMatchLen atoms) s.data).map String.mk

/-! ## Harvester: `parallel_harvester` -/

/-- The aggregated harvest. -/
structure HarvesterResults where
  emails : List String
  subdomains : List String
deriving DecidableEq

/-- The three dork query strings built for a target domain. -/
def dorks (domain : String) : List String :=
  ["site:google.com \"@" ++ domain ++ "\"",
   "\"@" ++ domain ++ "\"",
   "site:*." ++ domain]

/-- The search URLs: each dork is concatenated, as is, into a Google search
URL with the fixed `&num=50` result-count parameter. -/
def urls_to_scrape (domain : String) : List String :=
  (dorks domain).map (fun dork => "https://www.google.com/search?q=" ++ dork ++ "&num=50")

/-- An entry is skipped by the harvester when its body contains `CURL_ERROR`
anywhere (`html.find("CURL_ERROR") != std::string::npos`). -/
def harvestExcluded (html : String) : Bool := containsSub html "CURL_ERROR"

/-- The extraction phase of `parallel_harvester`: for every map entry whose
body does not contain the sentinel substring, append every email-pattern match
containing the domain as a substring, and every subdomain-pattern match
unconditionally. -/
def harvestFromMap (domain : String) (scraped : List (String × String)) :
    HarvesterResults :=
  let kept := scraped.filter (fun p => !(harvestExcluded p.2))
  { emails := kept.flatMap (fun p =>
      (findEmails p.2).filter (fun e => containsSub e domain))
    subdomains := kept.flatMap (fun p => findSubs (compileDomain domain) p.2) }

/-- `parallel_harvester`: build the dork URLs, bulk-scrape them, then extract. -/
def parallel_harvester (net : Nat → String → CurlOutcome) (domain : String) :
    HarvesterResults :=
  harvestFromMap domain (parallel_scrape net (urls_to_scrape domain))

/-! ## Spec-side definition for the query-encoding refinement claim -/

/-- Hexadecimal digit (uppercase) of a value below 16. -/
def hexDigit (n : Nat) : Char := if n < 10 then Char.ofNat (48 + n) else Char.ofNat (55 + n)

/-- RFC 3986 unreserved characters, which URL-encoding leaves intact. -/
def isUnreserved (c : Char) : Bool :=
  c.isAlpha || c.isDigit || c == '-' || c == '.' || c == '_' || c == '~'

/-- Percent-encode one (ASCII) character. -/
def percentEncodeChar (c : Char) : List Char :=
  if isUnreserved c then [c]
  else ['%', hexDigit (c.toNat / 16 % 16), hexDigit (c.toNat % 16)]

/-- Spec-side definition, following the spec's words: the URL-encoded form of
a query string, as it would appear inside a search-engine URL.  The source is
compared against this for the claim that queries are URL-encoded. -/
def specUrlEncode (s : String) : String := String.mk (s.data.flatMap percentEncodeChar)

/-! ## Helper lemmas: `mapOpt` and `withIdx` -/

theorem mapOpt_eq_none_iff (f : α → Option β) (l : List α) :
    mapOpt f l = none ↔ ∃ x ∈ l, f x = none := by
  induction l with
  | nil => simp [mapOpt]
  | cons x xs ih =>
    cases hfx : f x with
    | none => simp [mapOpt, hfx]
    | some y =>
      cases hxs : mapOpt f xs with
      | none =>
        simp only [mapOpt, hfx, hxs, List.mem_cons]
        constructor
        · intro _
          obtain ⟨z, hz, hfz⟩ := ih.mp hxs
          exact ⟨z, Or.inr hz, hfz⟩
        · intro _; trivial
      | some ys =>
        simp only [mapOpt, hfx, hxs, List.mem_cons]
        constructor
        · intro hcontra; exact absurd hcontra (by simp)
        · rintro ⟨z, hz | hz, hfz⟩
          · subst hz; rw [hfx] at hfz; exact absurd hfz (by simp)
          · exact absurd (ih.mpr ⟨z, hz, hfz⟩) (by simp [hxs])

theorem mapOpt_some_get (f : α → Option β) (l : List α) (ys : List β)
    (h : mapOpt f l = some ys) :
    l.length = ys.length ∧
      ∀ i (hi : i < l.length) (hi2 : i < ys.length),
        f (l.get ⟨i, hi⟩) = some (ys.get ⟨i, hi2⟩) := by
  induction l generalizing ys with
  | nil =>
    simp [mapOpt] at h
    subst h
    exact ⟨rfl, by intro i hi _; exact absurd hi (by simp)⟩
  | cons x xs ih =>
    cases hfx : f x with
    | none => simp [mapOpt, hfx] at h
    | some y =>
      cases hxs : mapOpt f xs with
      | none => simp [mapOpt, hfx, hxs] at h
      | some zs =>
        simp only [mapOpt, hfx, hxs] at h
        obtain rfl : y :: zs = ys := by simpa using h
        obtain ⟨hlen, hget⟩ := ih zs hxs
        refine ⟨by simpa using hlen, ?_⟩
        intro i hi hi2
        cases i with
        | zero => simpa using hfx
        | succ j =>
          simpa using hget j (by simpa using hi) (by simpa using hi2)

theorem mem_withIdx (l : List α) :
    ∀ n i x, (i, x) ∈ withIdx n l ↔
      ∃ j, ∃ h : j < l.length, i = n + j ∧ l.get ⟨j, h⟩ = x := by
  induction l with
  | nil => simp [withIdx]
  | cons y ys ih =>
    intro n i x
    simp only [withIdx, List.mem_cons, ih, Prod.mk.injEq]
    constructor
    · rintro (⟨rfl, rfl⟩ | ⟨j, hj, rfl, rfl⟩)
      · exact ⟨0, by simp, by simp, by simp⟩
      · exact ⟨j + 1, by simpa using Nat.succ_lt_succ hj, by omega, by simp⟩
    · rintro ⟨j, hj, rfl, rfl⟩
      cases j with
      | zero => exact Or.inl ⟨by omega, by simp⟩
      | succ k =>
        exact Or.inr ⟨k, by simpa using Nat.lt_of_succ_lt_succ hj, by omega, by simp⟩

theorem withIdx_map_snd (l : List α) : ∀ n, (withIdx n l).map (fun p => p.2) = l := by
  induction l with
  | nil => intro n; simp [withIdx]
  | cons y ys ih => intro n; simp [withIdx, ih]

/-! ## Claim C1: a template without the placeholder -/

/-- C1 (counterexample): the Existence Probe is *not* safe on a site template
missing the `{username}` placeholder.  On the concrete one-site list whose
template contains no placeholder, `parallel_sherlock` aborts (the blind
`std::string::replace` at `npos` raises, modelled `none`) instead of skipping
or flagging the entry. -/
theorem sherlock_missing_placeholder_aborts :
    containsSub "https://example.com/profile" placeholder = false ∧
    parallel_sherlock (fun _ _ => HeadFetch.completed 200) "alice"
      ["https://example.com/profile"] = none := by
  constructor
  · decide
  · decide

/-- C1 (amended): a site URL template missing its placeholder is not
validated, skipped or flagged — substitution over the absent placeholder
raises and aborts the whole call.  `parallel_sherlock` fails exactly when
some template in the site list lacks the `{username}` placeholder. -/
theorem sherlock_abort_iff_missing_placeholder (net : Nat → String → HeadFetch)
    (username : String) (sites : List String) :
    parallel_sherlock net username sites = none ↔
      ∃ t ∈ sites, substUsername username t = none := by
  rw [← mapOpt_eq_none_iff (substUsername username) sites]
  unfold parallel_sherlock
  cases hm : mapOpt (substUsername username) sites with
  | none => simp
  | some urls => simp

/-! ## Claims C6 and C10: what the probe returns, and in which order -/

theorem mem_sherlock_collect (urls : List String) (f : Nat → String → Bool) (u : String) :
    u ∈ (((withIdx 0 urls).map (fun p => (p.2, f p.1 p.2))).filter
        (fun j => j.2)).map (fun j => j.1) ↔
      ∃ k, ∃ hk : k < urls.length, urls.get ⟨k, hk⟩ = u ∧ f k u = true := by
  constructor
  · intro hu
    obtain ⟨j, hjf, hj1⟩ := List.mem_map.mp hu
    obtain ⟨hjm, hj2⟩ := List.mem_filter.mp hjf
    obtain ⟨p, hp, hgp⟩ := List.mem_map.mp hjm
    obtain ⟨k, hk, hn, hget⟩ := (mem_withIdx urls 0 p.1 p.2).mp (by simpa using hp)
    have hp1 : p.1 = k := by omega
    have hj1' : p.2 = u := by rw [← hgp] at hj1; simpa using hj1
    have hj2' : f p.1 p.2 = true := by rw [← hgp] at hj2; simpa using hj2
    exact ⟨k, hk, by rw [hget, hj1'], by rw [← hp1, ← hj1']; exact hj2'⟩
  · rintro ⟨k, hk, rfl, hf⟩
    refine List.mem_map.mpr ⟨(urls.get ⟨k, hk⟩, f k (urls.get ⟨k, hk⟩)), ?_, rfl⟩
    refine List.mem_filter.mpr ⟨?_, by simpa using hf⟩
    exact List.mem_map.mpr ⟨(k, urls.get ⟨k, hk⟩),
      (mem_withIdx urls 0 k (urls.get ⟨k, hk⟩)).mpr ⟨k, hk, (Nat.zero_add k).symm, rfl⟩, rfl⟩

/-- C6: the Existence Probe returns exactly those concrete URLs whose
header-only fetch completed with HTTP status 200: a URL is in the result
sequence iff some site template substitutes to it and its probe found status
200, and `check_sherlock_url` maps a completed exchange to `decide (code = 200)`
while every transport failure (and a null curl handle) yields `false`, so the
caller cannot tell a 404 from a timeout. -/
theorem sherlock_returns_exactly_200
    (net : Nat → String → HeadFetch) (username : String)
    (sites : List String) (res : List String)
    (h : parallel_sherlock net username sites = some res) :
    (∀ u, u ∈ res ↔ ∃ i, ∃ hi : i < sites.length,
        substUsername username (sites.get ⟨i, hi⟩) = some u ∧
        check_sherlock_url (net i u) = true) ∧
    (∀ code, check_sherlock_url (HeadFetch.completed code) = decide (code = 200)) ∧
    check_sherlock_url HeadFetch.transportErr = false ∧
    check_sherlock_url HeadFetch.initFail = false := by
  refine ⟨?_, ?_, rfl, rfl⟩
  case refine_2 =>
    intro code
    show (code == 200) = decide (code = 200)
    by_cases hc : code = 200
    · subst hc; rfl
    · rw [decide_eq_false hc, beq_eq_false_iff_ne]; exact hc
  intro u
  cases hm : mapOpt (substUsername username) sites with
  | none => rw [parallel_sherlock, hm] at h; exact absurd h (by simp)
  | some urls =>
    rw [parallel_sherlock, hm] at h
    obtain rfl : _ = res := Option.some.inj h
    obtain ⟨hlen, hget⟩ := mapOpt_some_get (substUsername username) sites urls hm
    rw [mem_sherlock_collect urls (fun i v => check_sherlock_url (net i v)) u]
    constructor
    · rintro ⟨k, hk, rfl, hf⟩
      exact ⟨k, by omega, hget k (by omega) hk, hf⟩
    · rintro ⟨i, hi, hsub, hf⟩
      have hi2 : i < urls.length := by omega
      have := hget i hi hi2
      rw [hsub] at this
      exact ⟨i, hi2, (Option.some.inj this).symm, hf⟩

/-- C6 witness. -/
theorem sherlock_returns_exactly_200_witness :
    "https://a/alice" ∈ ["https://a/alice"] ∧
    check_sherlock_url (HeadFetch.completed 404) = false := by
  have h := sherlock_returns_exactly_200
    (fun i _ => if i = 1 then HeadFetch.completed 404 else HeadFetch.completed 200)
    "alice" ["https://a/{username}", "https://b/{username}"] ["https://a/alice"]
    (by decide)
  refine ⟨(h.1 "https://a/alice").mpr ⟨0, by decide, by decide, by decide⟩, ?_⟩
  simpa using h.2.1 404

/-- C10: the positively-resolved URLs come back in submission order — the
result sequence is an in-order sublist of the sequence of concrete URLs built
from the site list, because results are collected sequentially over the job
list after the parallel phase has completed. -/
theorem sherlock_preserves_order
    (net : Nat → String → HeadFetch) (username : String)
    (sites : List String) (res : List String) (urls : List String)
    (h : parallel_sherlock net username sites = some res)
    (hurls : mapOpt (substUsername username) sites = some urls) :
    List.Sublist res urls := by
  rw [parallel_sherlock, hurls] at h
  obtain rfl : _ = res := Option.some.inj h
  have h1 : List.Sublist
      ((((withIdx 0 urls).map (fun p => (p.2, check_sherlock_url (net p.1 p.2)))).filter
        (fun j => j.2)).map (fun j => j.1))
      (((withIdx 0 urls).map (fun p => (p.2, check_sherlock_url (net p.1 p.2)))).map
        (fun j => j.1)) :=
    List.Sublist.map _ (List.filter_sublist _)
  have h2 : (((withIdx 0 urls).map (fun p => (p.2, check_sherlock_url (net p.1 p.2)))).map
      (fun j => j.1)) = urls := by
    rw [List.map_map]
    exact withIdx_map_snd urls 0
  rw [h2] at h1
  exact h1

/-- C10 witness. -/
theorem sherlock_preserves_order_witness :
    List.Sublist ["https://a/alice", "https://c/alice"]
      ["https://a/alice", "https://b/alice", "https://c/alice"] :=
  sherlock_preserves_order
    (fun i _ => if i = 1 then HeadFetch.completed 404 else HeadFetch.completed 200)
    "alice" ["https://a/{username}", "https://b/{username}", "https://c/{username}"]
    ["https://a/alice", "https://c/alice"]
    ["https://a/alice", "https://b/alice", "https://c/alice"]
    (by decide) (by decide)

/-! ## Helper lemmas: the result map and the sequential merge -/

theorem withIdx_length (l : List α) : ∀ n, (withIdx n l).length = l.length := by
  induction l with
  | nil => intro n; simp [withIdx]
  | cons y ys ih => intro n; simp [withIdx, ih]

theorem mapFind_assign_self (m : List (String × String)) (k v : String) :
    mapFind (mapAssign m k v) k = some v := by
  induction m with
  | nil => simp [mapAssign, mapFind]
  | cons p ps ih =>
    by_cases h : p.1 = k
    · simp [mapAssign, h, mapFind]
    · simp [mapAssign, h, mapFind, ih]

theorem mapFind_assign_ne (m : List (String × String)) (k v k' : String)
    (h : k' ≠ k) : mapFind (mapAssign m k v) k' = mapFind m k' := by
  induction m with
  | nil => simp [mapAssign, mapFind, Ne.symm h]
  | cons p ps ih =>
    by_cases hp : p.1 = k
    · have h1 : ¬ (k = k') := fun hh => h hh.symm
      have h2 : ¬ (p.1 = k') := fun hh => h1 (hp.symm.trans hh)
      rw [mapAssign, if_pos hp, mapFind, if_neg h1, mapFind, if_neg h2]
    · by_cases hp' : p.1 = k'
      · rw [mapAssign, if_neg hp, mapFind, if_pos hp', mapFind, if_pos hp']
      · rw [mapAssign, if_neg hp, mapFind, if_neg hp', mapFind, if_neg hp', ih]

theorem mem_mapKeys_assign (m : List (String × String)) (k v a : String) :
    a ∈ mapKeys (mapAssign m k v) ↔ a ∈ mapKeys m ∨ a = k := by
  induction m with
  | nil => simp [mapAssign, mapKeys]
  | cons p ps ih =>
    by_cases h : p.1 = k
    · rw [mapAssign, if_pos h]
      simp only [mapKeys, List.map_cons, List.mem_cons]
      constructor
      · rintro (rfl | ha)
        · exact Or.inr rfl
        · exact Or.inl (Or.inr ha)
      · rintro ((rfl | ha) | rfl)
        · exact Or.inl h
        · exact Or.inr ha
        · exact Or.inl rfl
    · rw [mapAssign, if_neg h]
      simp only [mapKeys, List.map_cons, List.mem_cons] at ih ⊢
      rw [ih]
      tauto

theorem nodup_mapKeys_assign (m : List (String × String)) (k v : String)
    (h : (mapKeys m).Nodup) : (mapKeys (mapAssign m k v)).Nodup := by
  induction m with
  | nil => simp [mapAssign, mapKeys]
  | cons p ps ih =>
    rw [mapKeys, List.map_cons, List.nodup_cons] at h
    by_cases hp : p.1 = k
    · rw [mapAssign, if_pos hp, mapKeys, List.map_cons, List.nodup_cons]
      exact ⟨hp ▸ h.1, h.2⟩
    · rw [mapAssign, if_neg hp, mapKeys, List.map_cons, List.nodup_cons]
      refine ⟨?_, ih h.2⟩
      rw [show (mapAssign ps k v).map (fun p => p.1) = mapKeys (mapAssign ps k v) from rfl,
        mem_mapKeys_assign]
      rintro (ha | rfl)
      · exact h.1 ha
      · exact hp rfl

theorem mapAssign_not_mem (m : List (String × String)) (k v : String)
    (h : k ∉ mapKeys m) : mapAssign m k v = m ++ [(k, v)] := by
  induction m with
  | nil => simp [mapAssign]
  | cons p ps ih =>
    rw [mapKeys, List.map_cons, List.mem_cons] at h
    push_neg at h
    rw [mapAssign, if_neg (fun hh => h.1 hh.symm)]
    simp [ih h.2]

theorem foldAssign_no_key (jobs : List (String × String)) :
    ∀ (m : List (String × String)) (k : String), k ∉ jobs.map (fun j => j.1) →
      mapFind (jobs.foldl (fun m j => mapAssign m j.1 j.2) m) k = mapFind m k := by
  induction jobs with
  | nil => intro m k _; rfl
  | cons j js ih =>
    intro m k hk
    rw [List.map_cons, List.mem_cons] at hk
    push_neg at hk
    rw [List.foldl_cons, ih _ k hk.2, mapFind_assign_ne _ _ _ _ hk.1]

theorem foldAssign_find_exists (jobs : List (String × String)) :
    ∀ (m : List (String × String)) (k : String), k ∈ jobs.map (fun j => j.1) →
      ∃ j, j ∈ jobs ∧ j.1 = k ∧
        mapFind (jobs.foldl (fun m j => mapAssign m j.1 j.2) m) k = some j.2 := by
  induction jobs with
  | nil => intro m k hk; exact absurd hk (by simp)
  | cons j js ih =>
    intro m k hk
    by_cases hjs : k ∈ js.map (fun j => j.1)
    · obtain ⟨j', hj', hj1, hfind⟩ := ih (mapAssign m j.1 j.2) k hjs
      exact ⟨j', List.mem_cons_of_mem _ hj', hj1, hfind⟩
    · rw [List.map_cons, List.mem_cons] at hk
      rcases hk with hk | hk
      · refine ⟨j, List.mem_cons_self _ _, hk.symm, ?_⟩
        rw [List.foldl_cons, foldAssign_no_key js _ k hjs, ← hk, mapFind_assign_self]
      · exact absurd hk hjs

theorem foldAssign_keys_nodup (jobs : List (String × String)) :
    ∀ (m : List (String × String)), (mapKeys m).Nodup →
      (mapKeys (jobs.foldl (fun m j => mapAssign m j.1 j.2) m)).Nodup := by
  induction jobs with
  | nil => intro m h; exact h
  | cons j js ih =>
    intro m h
    exact ih _ (nodup_mapKeys_assign m j.1 j.2 h)

theorem mem_keys_foldAssign (jobs : List (String × String)) :
    ∀ (m : List (String × String)) (a : String),
      a ∈ mapKeys (jobs.foldl (fun m j => mapAssign m j.1 j.2) m) ↔
        a ∈ mapKeys m ∨ a ∈ jobs.map (fun j => j.1) := by
  induction jobs with
  | nil => intro m a; simp
  | cons j js ih =>
    intro m a
    rw [List.foldl_cons, ih, mem_mapKeys_assign]
    simp only [List.map_cons, List.mem_cons]
    tauto

theorem foldAssign_nodup_eq_append (jobs : List (String × String)) :
    ∀ (m : List (String × String)), (jobs.map (fun j => j.1)).Nodup →
      (∀ a ∈ mapKeys m, a ∉ jobs.map (fun j => j.1)) →
      jobs.foldl (fun m j => mapAssign m j.1 j.2) m = m ++ jobs := by
  induction jobs with
  | nil => intro m _ _; simp
  | cons j js ih =>
    intro m hnd hdisj
    rw [List.map_cons, List.nodup_cons] at hnd
    have hj1 : j.1 ∉ mapKeys m := by
      intro hmem
      exact hdisj j.1 hmem (by simp)
    rw [List.foldl_cons, mapAssign_not_mem m j.1 j.2 hj1]
    have : (fun a => (a.1, a.2)) j = j := rfl
    rw [ih (m ++ [(j.1, j.2)]) hnd.2 ?_]
    · simp
    · intro a ha
      rw [mapKeys, List.map_append] at ha
      rcases List.mem_append.mp ha with ha | ha
      · intro hcon
        exact hdisj a ha (List.mem_cons_of_mem _ hcon)
      · simp only [List.map_cons, List.map_nil, List.mem_singleton] at ha
        exact ha ▸ hnd.1

theorem mapFind_eq_of_mem_nodup (m : List (String × String)) (k v : String)
    (hnd : (mapKeys m).Nodup) (hmem : (k, v) ∈ m) : mapFind m k = some v := by
  induction m with
  | nil => exact absurd hmem (by simp)
  | cons p ps ih =>
    rw [mapKeys, List.map_cons, List.nodup_cons] at hnd
    rcases List.mem_cons.mp hmem with rfl | hmem'
    · simp [mapFind]
    · have hp : p.1 ≠ k := by
        intro hcon
        exact hnd.1 (hcon ▸ List.mem_map.mpr ⟨(k, v), hmem', rfl⟩)
      rw [mapFind, if_neg hp]
      exact ih hnd.2 hmem'

theorem filter_key_nil (m : List (String × String)) (k : String)
    (h : k ∉ mapKeys m) : m.filter (fun p => decide (p.1 = k)) = [] := by
  induction m with
  | nil => rfl
  | cons p ps ih =>
    rw [mapKeys, List.map_cons, List.mem_cons] at h
    push_neg at h
    rw [List.filter_cons, if_neg (by simpa using Ne.symm h.1)]
    exact ih h.2

theorem filter_key_one (m : List (String × String)) (k : String)
    (hnd : (mapKeys m).Nodup) (hmem : k ∈ mapKeys m) :
    (m.filter (fun p => decide (p.1 = k))).length = 1 := by
  induction m with
  | nil => exact absurd hmem (by simp [mapKeys])
  | cons p ps ih =>
    rw [mapKeys, List.map_cons, List.nodup_cons] at hnd
    rcases List.mem_cons.mp hmem with rfl | hmem'
    · rw [List.filter_cons, if_pos (by simp)]
      rw [filter_key_nil ps p.1 hnd.1]
      rfl
    · have hp : p.1 ≠ k := by
        intro hcon
        exact hnd.1 (hcon ▸ hmem')
      rw [List.filter_cons, if_neg (by simpa using hp)]
      exact ih hnd.2 hmem'

theorem scrapeJobs_keys (urls : List String) (f : Nat → String → String) :
    ((withIdx 0 urls).map (fun p => (p.2, f p.1 p.2))).map (fun j => j.1) = urls := by
  rw [List.map_map]
  exact withIdx_map_snd urls 0

/-! ## Claims C2 and C8: dispatcher cardinality and duplicate keys -/

/-- C2: on a list of pairwise-distinct URLs, the Dispatcher's result map has
exactly one entry per submitted URL — `N` entries for `N` jobs — and each
submitted job's key holds exactly the outcome its own fetch produced, whatever
mix of successes and failures the transport delivers: no job is dropped. -/
theorem parallel_scrape_complete (net : Nat → String → CurlOutcome)
    (urls : List String) (h : urls.Nodup) :
    (parallel_scrape net urls).length = urls.length ∧
    ∀ i (hi : i < urls.length),
      mapFind (parallel_scrape net urls) (urls.get ⟨i, hi⟩) =
        some (scrape_url (net i (urls.get ⟨i, hi⟩))) := by
  have hkeys : ((withIdx 0 urls).map
      (fun p => (p.2, scrape_url (net p.1 p.2)))).map (fun j => j.1) = urls :=
    scrapeJobs_keys urls (fun i u => scrape_url (net i u))
  have heq : parallel_scrape net urls =
      (withIdx 0 urls).map (fun p => (p.2, scrape_url (net p.1 p.2))) := by
    rw [parallel_scrape]
    have := foldAssign_nodup_eq_append
      ((withIdx 0 urls).map (fun p => (p.2, scrape_url (net p.1 p.2)))) []
      (by rw [hkeys]; exact h)
      (by intro a ha; exact absurd ha (by simp [mapKeys]))
    simpa using this
  constructor
  · rw [heq, List.length_map, withIdx_length]
  · intro i hi
    have hnd : (mapKeys ((withIdx 0 urls).map
        (fun p => (p.2, scrape_url (net p.1 p.2))))).Nodup := by
      show (((withIdx 0 urls).map
        (fun p => (p.2, scrape_url (net p.1 p.2)))).map (fun j => j.1)).Nodup
      rw [hkeys]; exact h
    have hmem : (urls.get ⟨i, hi⟩, scrape_url (net i (urls.get ⟨i, hi⟩))) ∈
        (withIdx 0 urls).map (fun p => (p.2, scrape_url (net p.1 p.2))) :=
      List.mem_map.mpr ⟨(i, urls.get ⟨i, hi⟩),
        (mem_withIdx urls 0 i (urls.get ⟨i, hi⟩)).mpr
          ⟨i, hi, (Nat.zero_add i).symm, rfl⟩, rfl⟩
    rw [heq]
    exact mapFind_eq_of_mem_nodup _ _ _ hnd hmem

/-- C2 witness. -/
theorem parallel_scrape_complete_witness :
    (parallel_scrape
        (fun i _ => if i = 0 then CurlOutcome.ok "hello" else CurlOutcome.err "timeout")
        ["a", "b"]).length = 2 ∧
    mapFind (parallel_scrape
        (fun i _ => if i = 0 then CurlOutcome.ok "hello" else CurlOutcome.err "timeout")
        ["a", "b"]) "b" = some "CURL_ERROR: timeout" := by
  have h := parallel_scrape_complete
    (fun i _ => if i = 0 then CurlOutcome.ok "hello" else CurlOutcome.err "timeout")
    ["a", "b"] (by decide)
  exact ⟨h.1, h.2 1 (by decide)⟩

/-- C8: when a URL occurs more than once in the input, the result map still
has exactly one entry for it, and that entry's value is a valid outcome
produced for one of the occurrences of that URL (the fetch result of some job
whose URL it is). -/
theorem parallel_scrape_duplicate (net : Nat → String → CurlOutcome)
    (urls : List String) (u : String) (h : u ∈ urls) :
    ((parallel_scrape net urls).filter (fun p => decide (p.1 = u))).length = 1 ∧
    ∃ i, ∃ hi : i < urls.length, urls.get ⟨i, hi⟩ = u ∧
      mapFind (parallel_scrape net urls) u = some (scrape_url (net i u)) := by
  have hkeys : ((withIdx 0 urls).map
      (fun p => (p.2, scrape_url (net p.1 p.2)))).map (fun j => j.1) = urls :=
    scrapeJobs_keys urls (fun i u => scrape_url (net i u))
  have hu : u ∈ ((withIdx 0 urls).map
      (fun p => (p.2, scrape_url (net p.1 p.2)))).map (fun j => j.1) := by
    rw [hkeys]; exact h
  constructor
  · have hnd : (mapKeys (parallel_scrape net urls)).Nodup :=
      foldAssign_keys_nodup _ [] (by simp [mapKeys])
    have hmem : u ∈ mapKeys (parallel_scrape net urls) :=
      (mem_keys_foldAssign _ [] u).mpr (Or.inr hu)
    exact filter_key_one _ u hnd hmem
  · obtain ⟨j, hjmem, hj1, hfind⟩ := foldAssign_find_exists _ [] u hu
    obtain ⟨p, hp, hgp⟩ := List.mem_map.mp hjmem
    obtain ⟨k, hk, hn, hget⟩ := (mem_withIdx urls 0 p.1 p.2).mp (by simpa using hp)
    have hp1 : p.1 = k := by omega
    have hp2 : p.2 = u := by rw [← hgp] at hj1; simpa using hj1
    refine ⟨k, hk, by rw [hget, hp2], ?_⟩
    have hval : j.2 = scrape_url (net k u) := by
      rw [← hgp, ← hp1, ← hp2]
    have hfind' : mapFind (parallel_scrape net urls) u = some j.2 := hfind
    rw [hfind', hval]

/-- C8 witness. -/
theorem parallel_scrape_duplicate_witness :
    ((parallel_scrape (fun i _ => CurlOutcome.ok (if i = 2 then "third" else "other"))
        ["a", "x", "a"]).filter (fun p => decide (p.1 = "a"))).length = 1 :=
  (parallel_scrape_duplicate
    (fun i _ => CurlOutcome.ok (if i = 2 then "third" else "other"))
    ["a", "x", "a"] "a" (by decide)).1

/-! ## Helper lemmas: sentinel detection and harvest membership -/

theorem isPrefixOf_append_self (p t : List Char) : p.isPrefixOf (p ++ t) = true := by
  induction p with
  | nil => simp [List.isPrefixOf]
  | cons c cs ih => simp [List.isPrefixOf, ih]

theorem findSubstr_isSome_of_prefix (p l : List Char) (h : p.isPrefixOf l = true) :
    (findSubstr p l).isSome = true := by
  cases l with
  | nil => simp [findSubstr, h]
  | cons c cs => simp [findSubstr, h]

theorem mem_harvestFromMap_emails (domain : String) (m : List (String × String))
    (tok : String) :
    tok ∈ (harvestFromMap domain m).emails ↔
      ∃ p, p ∈ m ∧ harvestExcluded p.2 = false ∧ tok ∈ findEmails p.2 ∧
        containsSub tok domain = true := by
  constructor
  · intro h
    obtain ⟨p, hp, htok⟩ := List.mem_flatMap.mp h
    obtain ⟨hpm, hpk⟩ := List.mem_filter.mp hp
    obtain ⟨hte, htc⟩ := List.mem_filter.mp htok
    exact ⟨p, hpm, by simpa using hpk, hte, htc⟩
  · rintro ⟨p, hpm, hpk, hte, htc⟩
    exact List.mem_flatMap.mpr ⟨p, List.mem_filter.mpr ⟨hpm, by simp [hpk]⟩,
      List.mem_filter.mpr ⟨hte, htc⟩⟩

theorem mem_harvestFromMap_subs (domain : String) (m : List (String × String))
    (tok : String) :
    tok ∈ (harvestFromMap domain m).subdomains ↔
      ∃ p, p ∈ m ∧ harvestExcluded p.2 = false ∧
        tok ∈ findSubs (compileDomain domain) p.2 := by
  constructor
  · intro h
    obtain ⟨p, hp, htok⟩ := List.mem_flatMap.mp h
    obtain ⟨hpm, hpk⟩ := List.mem_filter.mp hp
    exact ⟨p, hpm, by simpa using hpk, htok⟩
  · rintro ⟨p, hpm, hpk, htok⟩
    exact List.mem_flatMap.mpr ⟨p, List.mem_filter.mpr ⟨hpm, by simp [hpk]⟩, htok⟩

/-! ## Claim C3: the transport-error sentinel -/

/-- C3: every transport failure of a BodyFetch becomes the error string
`"CURL_ERROR: " ++ description` — it carries the fixed sentinel as a prefix —
and any map entry holding such an outcome contributes nothing to harvest
extraction (neither emails nor subdomains). -/
theorem transport_error_sentinel :
    (∀ msg, scrape_url (CurlOutcome.err msg) = "CURL_ERROR: " ++ msg) ∧
    (∀ msg, ("CURL_ERROR: ").data.isPrefixOf
      (scrape_url (CurlOutcome.err msg)).data = true) ∧
    (∀ msg, harvestExcluded (scrape_url (CurlOutcome.err msg)) = true) ∧
    (∀ u msg domain,
      harvestFromMap domain [(u, scrape_url (CurlOutcome.err msg))] =
        ⟨[], []⟩) := by
  have hdata : ∀ msg : String, (scrape_url (CurlOutcome.err msg)).data =
      "CURL_ERROR: ".data ++ msg.data := by
    intro msg
    show ("CURL_ERROR: " ++ msg).data = _
    simp
  have hexcl : ∀ msg : String, harvestExcluded (scrape_url (CurlOutcome.err msg)) = true := by
    intro msg
    show (findSubstr "CURL_ERROR".data (scrape_url (CurlOutcome.err msg)).data).isSome = true
    apply findSubstr_isSome_of_prefix
    rw [hdata msg, show "CURL_ERROR: ".data = "CURL_ERROR".data ++ ": ".data from rfl,
      List.append_assoc]
    exact isPrefixOf_append_self _ _
  refine ⟨fun _ => rfl, ?_, hexcl, ?_⟩
  · intro msg
    rw [hdata msg]
    exact isPrefixOf_append_self _ _
  · intro u msg domain
    rw [harvestFromMap]
    rw [List.filter_cons, if_neg (by simp [hexcl msg])]
    rfl

/-! ## Claim C9: exclusion is substring containment, not a prefix check -/

/-- C9: the harvester drops a scrape entry from *both* pattern scans precisely
when its body contains the substring `CURL_ERROR` anywhere: membership in
`emails` and in `subdomains` each requires a source body not containing the
sentinel substring.  Concretely, a genuinely fetched page that merely mentions
`CURL_ERROR` is excluded whole — the same body without the sentinel yields an
email and a subdomain match, with it both lists get nothing — while the
curl-initialization outcome `CURL_INIT_ERROR` does *not* contain that
substring, is not excluded, and a body carrying it is still scanned. -/
theorem harvest_exclusion_by_substring :
    harvestExcluded "CURL_INIT_ERROR" = false ∧
    scrape_url CurlOutcome.initFail = "CURL_INIT_ERROR" ∧
    (∀ domain m tok,
      tok ∈ (harvestFromMap domain m).emails ↔
        ∃ p, p ∈ m ∧ containsSub p.2 "CURL_ERROR" = false ∧
          tok ∈ findEmails p.2 ∧ containsSub tok domain = true) ∧
    (∀ domain m tok,
      tok ∈ (harvestFromMap domain m).subdomains ↔
        ∃ p, p ∈ m ∧ containsSub p.2 "CURL_ERROR" = false ∧
          tok ∈ findSubs (compileDomain domain) p.2) ∧
    harvestFromMap "example.com"
      [("q", "www.example.com admin@example.com")] =
      ⟨["admin@example.com"], ["www.example.com"]⟩ ∧
    containsSub "www.example.com CURL_ERROR admin@example.com" "CURL_ERROR" = true ∧
    harvestFromMap "example.com"
      [("q", "www.example.com CURL_ERROR admin@example.com")] = ⟨[], []⟩ ∧
    containsSub "www.example.com CURL_INIT_ERROR" "CURL_ERROR" = false ∧
    harvestFromMap "example.com"
      [("q", "www.example.com CURL_INIT_ERROR")] = ⟨[], ["www.example.com"]⟩ := by
  refine ⟨by decide, rfl, ?_, ?_, by decide, by decide, by decide, by decide, by decide⟩
  · intro domain m tok
    exact mem_harvestFromMap_emails domain m tok
  · intro domain m tok
    exact mem_harvestFromMap_subs domain m tok

/-! ## Claim C7: the email filter is loose substring containment -/

/-- C7: an email-shaped match from a scanned body is appended to `emails` iff
its text contains the target domain as a substring anywhere (loose
containment); on the spec's own example, both `example.com` addresses are
kept and the sentinel body is skipped. -/
theorem harvester_email_loose_containment (net : Nat → String → CurlOutcome)
    (domain tok : String) :
    (tok ∈ (parallel_harvester net domain).emails ↔
      ∃ p, p ∈ parallel_scrape net (urls_to_scrape domain) ∧
        harvestExcluded p.2 = false ∧ tok ∈ findEmails p.2 ∧
        containsSub tok domain = true) ∧
    (harvestFromMap "example.com"
        [("q1", "contact me at bob@example.com or admin@example.com"),
         ("q2", "CURL_ERROR: timeout")]).emails =
      ["bob@example.com", "admin@example.com"] :=
  ⟨mem_harvestFromMap_emails domain _ tok, by decide⟩

/-! ## Claim C4: query construction -/

theorem parallel_scrape_length_nodup (net : Nat → String → CurlOutcome)
    (urls : List String) (h : urls.Nodup) :
    (parallel_scrape net urls).length = urls.length := by
  have hkeys : ((withIdx 0 urls).map
      (fun p => (p.2, scrape_url (net p.1 p.2)))).map (fun j => j.1) = urls :=
    scrapeJobs_keys urls (fun i u => scrape_url (net i u))
  have heq := foldAssign_nodup_eq_append
    ((withIdx 0 urls).map (fun p => (p.2, scrape_url (net p.1 p.2)))) []
    (by rw [hkeys]; exact h)
    (by intro a ha; exact absurd ha (by simp [mapKeys]))
  rw [parallel_scrape, heq]
  simp [withIdx_length]

theorem urls_to_scrape_nodup (domain : String) : (urls_to_scrape domain).Nodup := by
  have hf : ∀ a b : String,
      ("https://www.google.com/search?q=" ++ a ++ "&num=50" : String) =
        "https://www.google.com/search?q=" ++ b ++ "&num=50" → a.length = b.length := by
    intro a b h
    have := congrArg String.length h
    simp only [String.length_append] at this
    omega
  have hd1 : ("site:google.com \"@" ++ domain ++ "\"" : String).length =
      domain.length + 19 := by
    simp only [String.length_append,
      show ("site:google.com \"@" : String).length = 18 from rfl,
      show ("\"" : String).length = 1 from rfl]
    omega
  have hd2 : ("\"@" ++ domain ++ "\"" : String).length = domain.length + 3 := by
    simp only [String.length_append,
      show ("\"@" : String).length = 2 from rfl,
      show ("\"" : String).length = 1 from rfl]
    omega
  have hd3 : ("site:*." ++ domain : String).length = domain.length + 7 := by
    simp only [String.length_append,
      show ("site:*." : String).length = 7 from rfl]
    omega
  have h12 : ("https://www.google.com/search?q=" ++
        ("site:google.com \"@" ++ domain ++ "\"") ++ "&num=50" : String) ≠
      "https://www.google.com/search?q=" ++ ("\"@" ++ domain ++ "\"") ++ "&num=50" := by
    intro hc
    have := hf _ _ hc
    rw [hd1, hd2] at this
    omega
  have h13 : ("https://www.google.com/search?q=" ++
        ("site:google.com \"@" ++ domain ++ "\"") ++ "&num=50" : String) ≠
      "https://www.google.com/search?q=" ++ ("site:*." ++ domain) ++ "&num=50" := by
    intro hc
    have := hf _ _ hc
    rw [hd1, hd3] at this
    omega
  have h23 : ("https://www.google.com/search?q=" ++
        ("\"@" ++ domain ++ "\"") ++ "&num=50" : String) ≠
      "https://www.google.com/search?q=" ++ ("site:*." ++ domain) ++ "&num=50" := by
    intro hc
    have := hf _ _ hc
    rw [hd2, hd3] at this
    omega
  show List.Nodup
    ["https://www.google.com/search?q=" ++
        ("site:google.com \"@" ++ domain ++ "\"") ++ "&num=50",
     "https://www.google.com/search?q=" ++ ("\"@" ++ domain ++ "\"") ++ "&num=50",
     "https://www.google.com/search?q=" ++ ("site:*." ++ domain) ++ "&num=50"]
  simp [List.nodup_cons, h12, h13, h23]

/-- C4 (counterexample): the dork query strings are *not* URL-encoded into the
search URLs — the raw concatenation differs from the URL-encoded form, and
the concrete URLs contain raw spaces, quotes, colons and asterisks. -/
theorem harvester_queries_not_urlencoded :
    urls_to_scrape "example.com" ≠
      (dorks "example.com").map
        (fun d => "https://www.google.com/search?q=" ++ specUrlEncode d ++ "&num=50") ∧
    urls_to_scrape "example.com" =
      ["https://www.google.com/search?q=site:google.com \"@example.com\"&num=50",
       "https://www.google.com/search?q=\"@example.com\"&num=50",
       "https://www.google.com/search?q=site:*.example.com&num=50"] := by
  constructor
  · decide
  · decide

/-- C4 (amended): harvest builds exactly three query strings for the target
domain (an emails-at-domain dork, a quoted mentions-of-domain dork, and a
subdomains wildcard dork), and each is spliced *raw* — not URL-encoded — into
one search-engine URL carrying the fixed `&num=50` result-count parameter;
the three URLs are pairwise distinct, so the scrape over them has exactly
three entries. -/
theorem harvester_query_construction (net : Nat → String → CurlOutcome)
    (domain : String) :
    (dorks domain).length = 3 ∧
    urls_to_scrape domain =
      (dorks domain).map (fun d => "https://www.google.com/search?q=" ++ d ++ "&num=50") ∧
    dorks domain =
      ["site:google.com \"@" ++ domain ++ "\"", "\"@" ++ domain ++ "\"",
       "site:*." ++ domain] ∧
    (parallel_scrape net (urls_to_scrape domain)).length = 3 :=
  ⟨rfl, rfl, rfl, by rw [parallel_scrape_length_nodup net _ (urls_to_scrape_nodup domain)]; rfl⟩

/-! ## Helper lemmas: shape of subdomain-pattern matches -/

theorem runLen_take (p : Char → Bool) (l : List Char) :
    ∀ j, j ≤ runLen p l → ∀ c ∈ l.take j, p c = true := by
  induction l with
  | nil => intro j hj c hc; simp at hc
  | cons x xs ih =>
    intro j hj c hc
    have hrl : runLen p (x :: xs) = if p x = true then runLen p xs + 1 else 0 := rfl
    cases j with
    | zero => simp at hc
    | succ j' =>
      cases hpx : p x with
      | false =>
        rw [hrl, hpx] at hj
        simp at hj
      | true =>
        rw [hrl, hpx, if_pos rfl] at hj
        rw [List.take_succ_cons] at hc
        rcases List.mem_cons.mp hc with rfl | hc'
        · exact hpx
        · exact ih j' (by omega) c hc'

theorem trySplit_spec (cont : List Char → Option Nat) (l : List Char) :
    ∀ j n, trySplit cont l j = some n →
      ∃ j' rest m, 1 ≤ j' ∧ j' ≤ j ∧ l.drop j' = '.' :: rest ∧
        cont rest = some m ∧ n = j' + 1 + m := by
  intro j
  induction j with
  | zero => intro n h; exact absurd h (by simp [trySplit])
  | succ j ih =>
    intro n h
    have hunf : trySplit cont l (j + 1) = tryDotAt cont l (j + 1) (trySplit cont l j) := rfl
    rw [hunf] at h
    unfold tryDotAt at h
    split at h
    · rename_i c rest hd
      split at h
      · rename_i hc
        split at h
        · rename_i m hcont
          have hn := Option.some.inj h
          exact ⟨j + 1, rest, m, by omega, Nat.le_refl _, by rw [hd, hc], hcont, by omega⟩
        · obtain ⟨j', rest', m, h1, h2, h3, h4, h5⟩ := ih n h
          exact ⟨j', rest', m, h1, Nat.le_succ_of_le h2, h3, h4, h5⟩
      · obtain ⟨j', rest', m, h1, h2, h3, h4, h5⟩ := ih n h
        exact ⟨j', rest', m, h1, Nat.le_succ_of_le h2, h3, h4, h5⟩
    · obtain ⟨j', rest', m, h1, h2, h3, h4, h5⟩ := ih n h
      exact ⟨j', rest', m, h1, Nat.le_succ_of_le h2, h3, h4, h5⟩

theorem atomsLen_spec : ∀ (atoms : List RAtom) (l : List Char) (m : Nat),
    atomsLen atoms l = some m →
    m = atoms.length ∧ m ≤ l.length ∧ atomsLen atoms (l.take m) = some m := by
  intro atoms
  induction atoms with
  | nil =>
    intro l m h
    have hm : m = 0 := by simpa [atomsLen] using h.symm
    subst hm
    exact ⟨rfl, Nat.zero_le _, by simp [atomsLen]⟩
  | cons a as ih =>
    intro l m h
    cases l with
    | nil => simp [atomsLen] at h
    | cons c cs =>
      have hrl : atomsLen (a :: as) (c :: cs) =
          if atomStep a c then (atomsLen as cs).map (· + 1) else none := rfl
      rw [hrl] at h
      split at h
      · rename_i hstep
        cases hm' : atomsLen as cs with
        | none => rw [hm'] at h; simp at h
        | some m' =>
          rw [hm'] at h
          simp at h
          obtain ⟨h1, h2, h3⟩ := ih cs m' hm'
          subst h
          refine ⟨by simp [h1], by simpa using Nat.succ_le_succ h2, ?_⟩
          have htake : (c :: cs).take (m' + 1) = c :: cs.take m' := rfl
          rw [htake]
          have hrl2 : atomsLen (a :: as) (c :: cs.take m') =
              if atomStep a c then (atomsLen as (cs.take m')).map (· + 1) else none := rfl
          rw [hrl2, if_pos hstep, h3]
          rfl
      · simp at h

theorem scanAux_sound (ml : List Char → Option Nat) :
    ∀ fuel l tok, tok ∈ scanAux ml fuel l →
      ∃ l' n, ml l' = some n ∧ tok = l'.take n := by
  intro fuel
  induction fuel with
  | zero => intro l tok h; simp [scanAux] at h
  | succ fuel ih =>
    intro l tok h
    cases l with
    | nil => simp [scanAux] at h
    | cons c cs =>
      have hrl : scanAux ml (fuel + 1) (c :: cs) =
          match ml (c :: cs) with
          | some n => (c :: cs).take n :: scanAux ml fuel ((c :: cs).drop n)
          | none => scanAux ml fuel cs := rfl
      rw [hrl] at h
      split at h
      · rename_i n hml
        rcases List.mem_cons.mp h with rfl | h'
        · exact ⟨c :: cs, n, hml, rfl⟩
        · exact ih _ tok h'
      · exact ih _ tok h

theorem subMatchLen_shape (atoms : List RAtom) (l : List Char) (n : Nat)
    (h : subMatchLen atoms l = some n) :
    ∃ pre restTok, l.take n = pre ++ '.' :: restTok ∧ pre ≠ [] ∧
      (∀ c ∈ pre, isHostChar c = true) ∧
      atomsLen atoms restTok = some restTok.length ∧
      restTok.length = atoms.length := by
  obtain ⟨j', rest, m, h1, h2, hd, hcont, hn⟩ :=
    trySplit_spec (atomsLen atoms) l (runLen isHostChar l) n h
  obtain ⟨hm1, hm2, hm3⟩ := atomsLen_spec atoms rest m hcont
  have hlt : j' < l.length := by
    have := congrArg List.length hd
    rw [List.length_drop] at this
    simp only [List.length_cons] at this
    omega
  have hrestlen : (rest.take m).length = m := by
    rw [List.length_take]
    omega
  refine ⟨l.take j', rest.take m, ?_, ?_, ?_, ?_, ?_⟩
  · rw [hn, show j' + 1 + m = j' + (1 + m) from by omega, List.take_add, hd,
      show 1 + m = m + 1 from by omega, List.take_succ_cons]
  · intro hnil
    have := congrArg List.length hnil
    rw [List.length_take] at this
    simp only [List.length_nil] at this
    omega
  · exact runLen_take isHostChar l j' h2
  · rw [hrestlen]
    exact hm3
  · rw [hrestlen]
    exact hm1

/-! ## Claim C5: what the subdomain scan appends -/

/-- C5 (counterexample): an appended subdomain token need *not* end in a
literal dot followed by the target domain.  With domain `example.com`, the
body `a.exampleXcom` produces the appended token `a.exampleXcom`, in which
`.example.com` (a dot followed by the domain) does not occur at all — the
domain's own `.` was interpolated into the pattern as a metacharacter. -/
theorem harvester_subdomain_not_literal :
    "a.exampleXcom" ∈ (parallel_harvester
        (fun _ _ => CurlOutcome.ok "a.exampleXcom") "example.com").subdomains ∧
    containsSub "a.exampleXcom" ".example.com" = false := by
  constructor
  · decide
  · decide

/-- C5 (amended): every string appended to `subdomains` is one-or-more label
characters, then a literal dot, then a segment that matches the *pattern* the
domain compiles to — each `.` of the domain acting as a regex wildcard, since
the domain is interpolated unescaped — rather than the literal domain string;
and every such match is appended unconditionally: a string is in `subdomains`
iff it is a subdomain-pattern match of some non-excluded fetched body, with no
further filtering of subdomain matches. -/
theorem harvester_subdomain_shape (net : Nat → String → CurlOutcome)
    (domain : String) (_hdom : ∀ c ∈ domain.data, isHostChar c = true) :
    (∀ tok, tok ∈ (parallel_harvester net domain).subdomains →
      ∃ pre restTok, tok.data = pre ++ '.' :: restTok ∧ pre ≠ [] ∧
        (∀ c ∈ pre, isHostChar c = true) ∧
        atomsLen (compileDomain domain) restTok = some restTok.length ∧
        restTok.length = domain.length) ∧
    (∀ tok, tok ∈ (parallel_harvester net domain).subdomains ↔
      ∃ p, p ∈ parallel_scrape net (urls_to_scrape domain) ∧
        harvestExcluded p.2 = false ∧
        tok ∈ findSubs (compileDomain domain) p.2) := by
  constructor
  · intro tok htok
    obtain ⟨p, hpm, hpk, htd⟩ := (mem_harvestFromMap_subs domain
      (parallel_scrape net (urls_to_scrape domain)) tok).mp htok
    obtain ⟨td, htdmem, hmk⟩ := List.mem_map.mp htd
    obtain ⟨l', n, hml, hto⟩ := scanAux_sound (subMatchLen (compileDomain domain))
      p.2.data.length p.2.data td htdmem
    obtain ⟨pre, restTok, heq, hne, hhost, hat, hlen⟩ :=
      subMatchLen_shape (compileDomain domain) l' n hml
    refine ⟨pre, restTok, ?_, hne, hhost, hat, ?_⟩
    · rw [← hmk]
      show td = pre ++ '.' :: restTok
      rw [hto]
      exact heq
    · rw [hlen]
      show (compileDomain domain).length = domain.length
      rw [compileDomain, List.length_map]
      rfl
  · intro tok
    exact mem_harvestFromMap_subs domain (parallel_scrape net (urls_to_scrape domain)) tok

/-- C5 witness. -/
theorem harvester_subdomain_shape_witness :
    (∃ pre restTok, "a.exampleXcom".data = pre ++ '.' :: restTok ∧ pre ≠ [] ∧
      (∀ c ∈ pre, isHostChar c = true) ∧
      atomsLen (compileDomain "example.com") restTok = some restTok.length ∧
      restTok.length = "example.com".length) ∧
    "a.exampleXcom" ∈ (parallel_harvester
        (fun _ _ => CurlOutcome.ok "a.exampleXcom") "example.com").subdomains := by
  have h := harvester_subdomain_shape (fun _ _ => CurlOutcome.ok "a.exampleXcom")
    "example.com" (by decide)
  refine ⟨h.1 "a.exampleXcom" (by decide), ?_⟩
  exact (h.2 "a.exampleXcom").mpr
    ⟨("https://www.google.com/search?q=site:google.com \"@example.com\"&num=50",
      "a.exampleXcom"), by decide, by decide, by decide⟩
